import Mathlib

/-!
Verification of the Item 1A "Risk Factors" extractor (src/extract.py).

The document tree produced by the external HTML parser is embedded as a
list of nodes in document order (the order of repeated `find_next` calls).
Each node carries exactly the attributes the program reads: its tag name,
its stripped text (`get_text(strip=True)`), its separator text
(`get_text(separator=' ', strip=True)`) and its parent's stripped text.
Regular expressions of the source are embedded as executable character
scanners; `re.IGNORECASE` is modelled by ASCII case folding, and the
Python `\s` class by an explicit set of whitespace characters.
-/

namespace Extract

/-- Whitespace characters matched by Python's `\s` on `str` (and stripped by
`str.strip()`): ASCII whitespace, the C1 separators, and the Unicode spaces. -/
def pyWS (c : Char) : Bool :=
  c == ' ' || c == '\t' || c == '\n' || c == '\r' || c == '\x0b' || c == '\x0c' ||
  c == '\x1c' || c == '\x1d' || c == '\x1e' || c == '\x1f' ||
  c == '\x85' || c == '\xa0' || c == ' ' ||
  (0x2000 ≤ c.toNat && c.toNat ≤ 0x200a) ||
  c == ' ' || c == ' ' || c == ' ' || c == ' ' || c == '　'

/-- `needle in hay` of Python: contiguous substring test on character lists. -/
def containsSub (needle : List Char) : List Char → Bool
  | [] => needle.isEmpty
  | c :: t => needle.isPrefixOf (c :: t) || containsSub needle t

/-- Lowercased character list of a string, modelling `str.lower()` /
`re.IGNORECASE` (ASCII folding). -/
def lowerChars (s : String) : List Char := s.data.map Char.toLower

/-- One optional literal period, as `\.?` consumes it. -/
def optDot : List Char → List Char
  | '.' :: r => r
  | l => l

/-- Full-string match of `^\s*ITEM\s*1A\.?\s*RISK\s*FACTORS\.?\s*$` on an
already lowercased character list (both heading patterns of
`find_all_item1a_candidates` coincide under `re.IGNORECASE`). -/
def item1aMatch (l : List Char) : Bool :=
  let l1 := l.dropWhile pyWS
  if l1.take 4 = ['i', 't', 'e', 'm'] then
    let l2 := (l1.drop 4).dropWhile pyWS
    if l2.take 2 = ['1', 'a'] then
      let l3 := (optDot (l2.drop 2)).dropWhile pyWS
      if l3.take 4 = ['r', 'i', 's', 'k'] then
        let l4 := (l3.drop 4).dropWhile pyWS
        if l4.take 7 = ['f', 'a', 'c', 't', 'o', 'r', 's'] then
          (optDot (l4.drop 7)).dropWhile pyWS = []
        else false
      else false
    else false
  else false

/-- A node's displayed text matches one of the two Item 1A heading patterns. -/
def matchesItem1A (s : String) : Bool := item1aMatch (lowerChars s)

/-- Anchored match of `^\s*ITEM\s*1B` or `^\s*ITEM\s*2[^0-9]` (patterns of
`find_next_major_section`, case-insensitive) on a lowercased list. -/
def itemEndMatch (l : List Char) : Bool :=
  let l1 := l.dropWhile pyWS
  if l1.take 4 = ['i', 't', 'e', 'm'] then
    match (l1.drop 4).dropWhile pyWS with
    | '1' :: 'b' :: _ => true
    | '2' :: c :: _ => !c.isDigit
    | _ => false
  else false

/-- A node's text starts (after whitespace) a next-major-section heading. -/
def matchesEnd (s : String) : Bool := itemEndMatch (lowerChars s)

/-- Python's `\w` word characters (ASCII model). -/
def isWordChar (c : Char) : Bool := c.isAlphanum || c == '_'

/-- Attempted match of `ITEM\s*1B\b` or `ITEM\s*2\b` at the current position
of a lowercased list (the leading `\b` is checked by the caller). -/
def itemRefAt (l : List Char) : Bool :=
  if l.take 4 = ['i', 't', 'e', 'm'] then
    match (l.drop 4).dropWhile pyWS with
    | '1' :: 'b' :: rest =>
      match rest with
      | [] => true
      | c :: _ => !isWordChar c
    | '2' :: rest =>
      match rest with
      | [] => true
      | c :: _ => !isWordChar c
    | _ => false
  else false

/-- Scan for `\bITEM\s*1B\b` / `\bITEM\s*2\b` anywhere in the list, tracking
whether the previous character was a word character (for the leading `\b`). -/
def nextItemScan (prevWord : Bool) : List Char → Bool
  | [] => false
  | c :: rest =>
    (if prevWord then false else itemRefAt (c :: rest)) ||
      nextItemScan (isWordChar c) rest

/-- `re.search` of the next-item patterns over the lookahead text. -/
def nextItemHit (l : List Char) : Bool := nextItemScan false l

/-- Full match of `^\s*\d+\s*$`: a page-number artifact. -/
def isPageNum (s : String) : Bool :=
  let l1 := s.data.dropWhile pyWS
  !(l1.takeWhile Char.isDigit).isEmpty &&
    ((l1.dropWhile Char.isDigit).dropWhile pyWS).isEmpty

/-- The fixed cross-reference phrase list of `score_candidate`. -/
def referenceIndicators : List String :=
  ["described in", "see", "refer to", "factors in", "included in",
   "discussed in", "contained in", "set forth in", "presented in",
   "disclosed in", "other factors", "additional information",
   "for more information", "as described in", "further discussed in",
   "more fully described", "conjunction with", "forward-looking",
   "annual report on form"]

/-- `any(indicator in lowered for indicator in reference_indicators)`. -/
def hasIndicator (lowered : List Char) : Bool :=
  referenceIndicators.any fun ind => containsSub ind.data lowered

/-- The fixed risk keyword list of `score_candidate`. -/
def riskKeywords : List String :=
  ["risk", "uncertain", "could", "may", "might",
   "adverse", "factor", "subject to", "depend", "fail"]

/-- A document node, carrying the attributes read by the program. -/
structure Node where
  tag : String
  text : String
  sepText : String
  parentText : Option String
  deriving DecidableEq, Repr

/-- Tag sets appearing in the source. -/
def headingTags : List String := ["h1", "h2", "h3", "h4", "h5", "h6"]

def inlineTags : List String := ["b", "strong", "span", "i", "em"]

def collectTags : List String := ["p", "div", "span", "td"]

def searchTags : List String :=
  ["p", "div", "h1", "h2", "h3", "h4", "h5", "h6", "span", "td"]

def endTags : List String :=
  ["p", "div", "span", "td", "h1", "h2", "h3", "h4", "h5", "h6"]

def extractTags : List String := ["p", "div", "span", "td", "li"]

/-- The lookahead loop of `score_candidate`: walk up to 20 subsequent nodes
while fewer than 2000 characters are collected, keeping the stripped text of
`p`/`div`/`span`/`td` nodes longer than 10 characters. -/
def collectNext : List Node → Nat → Nat → List String
  | [], _, _ => []
  | n :: ns, count, chars =>
    if count < 20 ∧ chars < 2000 then
      if collectTags.contains n.tag ∧ n.text ≠ "" ∧ 10 < n.text.length then
        n.text :: collectNext ns (count + 1) (chars + n.text.length)
      else collectNext ns (count + 1) chars
    else []

/-- `sep.join(parts)` of Python on character lists. -/
def joinSep (sep : List Char) : List (List Char) → List Char
  | [] => []
  | [x] => x
  | x :: y :: xs => x ++ sep ++ joinSep sep (y :: xs)

/-- `score_candidate(element, text, soup)`: `rest` is the list of nodes after
`element` in document order (its `find_next` chain). -/
def scoreCandidate (e : Node) (text : String) (rest : List Node) : Int :=
  let s0 : Int := if e.text.length ≤ text.length + 15 then 50 else 0
  let s1 : Int := if headingTags.contains e.tag then 30 else 0
  let s2 : Int := if e.tag = "p" ∨ e.tag = "div" then 20 else 0
  let s3 : Int := if inlineTags.contains e.tag then -20 else 0
  let s4 : Int := if hasIndicator (lowerChars e.text) then -100 else 0
  let s5 : Int :=
    match e.parentText with
    | none => 0
    | some pt => if pt.length < 500 ∧ hasIndicator (lowerChars pt) then -80 else 0
  let collected := collectNext rest 0 0
  let combined := (joinSep [' '] (collected.map String.data)).map Char.toLower
  let chars := (collected.map String.length).sum
  let s6 : Int := ((riskKeywords.filter fun k => containsSub k.data combined).length : Int) * 5
  let s7 : Int := if 1000 < chars then 30 else if 500 < chars then 15 else 0
  let s8 : Int := if nextItemHit combined then 20 else 0
  s0 + s1 + s2 + s3 + s4 + s5 + s6 + s7 + s8

/-- A scored candidate: its score, the node, and the nodes after it in
document order (standing for the node's position in the tree). -/
abbrev Cand := Int × Node × List Node

/-- The scan of `find_all_item1a_candidates` before sorting: every node whose
tag is in the searched tag set and whose stripped text matches a heading
pattern, scored in place, in document order. -/
def rawCandidates : List Node → List Cand
  | [] => []
  | n :: ns =>
    if searchTags.contains n.tag ∧ matchesItem1A n.text then
      (scoreCandidate n n.text ns, n, ns) :: rawCandidates ns
    else rawCandidates ns

/-- Stable insertion for a descending sort: an element is placed after all
earlier elements of greater-or-equal score, mirroring Python's stable
`list.sort(key=score, reverse=True)`. -/
def insertDesc (x : Cand) : List Cand → List Cand
  | [] => [x]
  | y :: ys => if x.1 > y.1 then x :: y :: ys else y :: insertDesc x ys

/-- `candidates.sort(key=lambda x: x[0], reverse=True)` (stable). -/
def sortCandidates (l : List Cand) : List Cand :=
  l.foldl (fun acc c => insertDesc c acc) []

/-- `find_all_item1a_candidates(soup)`. -/
def find_all_item1a_candidates (doc : List Node) : List Cand :=
  sortCandidates (rawCandidates doc)

/-- `find_item1a_start(soup)`: highest-scoring candidate, accepted only when
its score is strictly positive. -/
def find_item1a_start (doc : List Node) : Option Cand :=
  match find_all_item1a_candidates doc with
  | [] => none
  | c :: _ => if c.1 > 0 then some c else none

/-- The end-of-section test of `find_next_major_section`. -/
def isEndNode (n : Node) : Bool := endTags.contains n.tag && matchesEnd n.text

/-- `find_next_major_section(element)`, scanning the nodes after the start. -/
def find_next_major_section (rest : List Node) : Option Node :=
  rest.find? isEndNode

/-- The filter of the extraction loop of `extract_item1a_content`. -/
def keepPart (n : Node) : Bool :=
  extractTags.contains n.tag && n.sepText ≠ "" && 10 < n.sepText.length &&
    !isPageNum n.sepText && !containsSub "Table of Contents".data n.sepText.data

/-- The node texts collected strictly between the start node and the next
major section (or to document end when there is none). -/
def extractParts (rest : List Node) : List String :=
  (rest.takeWhile fun n => !isEndNode n).filterMap fun n =>
    if keepPart n then some n.sepText else none

/-- Collapse whitespace runs to one space, tracking whether the previous
character was whitespace (the run's first character emits the space). -/
def collapseAux (prevWS : Bool) : List Char → List Char
  | [] => []
  | c :: cs =>
    if pyWS c then
      if prevWS then collapseAux true cs else ' ' :: collapseAux true cs
    else c :: collapseAux false cs

/-- `re.sub(r'\s+', ' ', text)`: collapse every whitespace run to one space. -/
def collapseWS (l : List Char) : List Char := collapseAux false l

/-- `text.strip()`. -/
def pyStrip (l : List Char) : List Char :=
  ((l.dropWhile pyWS).reverse.dropWhile pyWS).reverse

/-- `text.replace('\xa0', ' ')`, applied character by character. -/
def nbspFix (c : Char) : Char := if c = '\xa0' then ' ' else c

/-- `clean_text(text)`: collapse whitespace runs, replace non-breaking
spaces, strip the ends. -/
def clean_text (s : String) : String :=
  ⟨pyStrip ((collapseWS s.data).map nbspFix)⟩

/-- `extract_item1a_content(soup)`: `none` when no section start is found,
otherwise the cleaned concatenation of the surviving texts. -/
def extract_item1a_content (doc : List Node) : Option String :=
  match find_item1a_start doc with
  | none => none
  | some (_, _, rest) =>
    some (clean_text ⟨joinSep [' '] ((extractParts rest).map String.data)⟩)

/-- The three bullet glyphs replaced by `split_into_sentences`. -/
def bulletChars : List Char := ['•', '·', '▪']

/-- The marker string `|||BULLET|||`. -/
def markerChars : List Char := "|||BULLET|||".data

/-- `re.sub(r'[•·▪]', '|||BULLET|||', text)`. -/
def replaceBullets (l : List Char) : List Char :=
  (l.map fun c => if bulletChars.contains c then markerChars else [c]).flatten

/-- Splitting scan: when `skip` is positive the current character belongs to
an already matched marker occurrence and is dropped. -/
def splitMarkerAux (skip : Nat) (acc : List Char) : List Char → List (List Char)
  | [] => [acc.reverse]
  | c :: cs =>
    match skip with
    | k + 1 => splitMarkerAux k acc cs
    | 0 =>
      if markerChars.isPrefixOf (c :: cs) then
        acc.reverse :: splitMarkerAux 11 [] cs
      else splitMarkerAux 0 (c :: acc) cs

/-- `text.split('|||BULLET|||')`: split on leftmost non-overlapping
occurrences of the marker. -/
def splitMarker (acc : List Char) (l : List Char) : List (List Char) :=
  splitMarkerAux 0 acc l

/-- Sentence-terminal punctuation of the splitting pattern. -/
def isEndPunct (c : Char) : Bool := c == '.' || c == '!' || c == '?'

/-- The `[A-Z]` class of the splitting pattern. -/
def isUpperAZ (c : Char) : Bool := 65 ≤ c.toNat && c.toNat ≤ 90

/-- `re.split(r'(?<=[.!?])\s+(?=[A-Z])|(?<=[.!?])$', part)`: a delimiter is a
whitespace run after terminal punctuation and before an upper-case letter,
or the empty match at the end (also just before one final newline) after
terminal punctuation.  `prevPunct` records whether the previous character
satisfies the look-behind; `buf` holds (reversed) a whitespace run that
followed terminal punctuation, kept pending until the character after the
run decides whether the run was a delimiter. -/
def sentSplitAux (acc : List Char) (prevPunct : Bool) (buf : List Char) :
    List Char → List (List Char)
  | [] =>
    if buf = [] then (if prevPunct then [acc.reverse, []] else [acc.reverse])
    else if buf = ['\n'] then [acc.reverse, ['\n']]
    else [(buf ++ acc).reverse]
  | c :: cs =>
    match buf with
    | [] =>
      if prevPunct ∧ pyWS c then sentSplitAux acc false [c] cs
      else sentSplitAux (c :: acc) (isEndPunct c) [] cs
    | b :: bs =>
      if pyWS c then sentSplitAux acc false (c :: b :: bs) cs
      else if isUpperAZ c then
        acc.reverse :: sentSplitAux [c] (isEndPunct c) [] cs
      else sentSplitAux (c :: (b :: bs) ++ acc) (isEndPunct c) [] cs

/-- One part between bullet markers: skipped when it strips to nothing,
otherwise split into sentences which are stripped and kept when longer
than 3 characters. -/
def processPart (part : List Char) : List String :=
  if (pyStrip part).isEmpty then []
  else
    (sentSplitAux [] false [] part).filterMap fun raw =>
      if 3 < (pyStrip raw).length then some ⟨pyStrip raw⟩ else none

/-- `split_into_sentences(text)`. -/
def split_into_sentences (s : String) : List String :=
  ((splitMarker [] (replaceBullets s.data)).map processPart).flatten

/-- `s.replace("'", "\\'")`. -/
def escQuote (l : List Char) : List Char :=
  (l.map fun c => if c = '\'' then ['\\', '\''] else [c]).flatten

/-- The `"', '"` separator of `format_output`. -/
def sepChars : List Char := ['\'', ',', ' ', '\'']

/-- `format_output(sentences)`. -/
def format_output (ss : List String) : String :=
  ⟨'[' :: '\'' :: (joinSep sepChars (ss.map fun s => escQuote s.data) ++ ['\'', ']'])⟩

/-- The inverse of the escaping rule, modelled from the spec: inside the
brackets, a backslash followed by a single quote yields a literal quote, the
four-character separator closes the current entry, and every other character
is literal. -/
def unescapeSplit (acc : List Char) : List Char → List (List Char)
  | '\\' :: '\'' :: rest => unescapeSplit ('\'' :: acc) rest
  | '\'' :: ',' :: ' ' :: '\'' :: rest => acc.reverse :: unescapeSplit [] rest
  | c :: rest => unescapeSplit (c :: acc) rest
  | [] => [acc.reverse]

/-- Modelled from the spec: re-parse a serialized sentence-list literal by
stripping the enclosing `['` and `']` and inverting the escaping rule. -/
def parse_output (s : String) : List String :=
  (unescapeSplit [] (((s.data.drop 2).dropLast).dropLast)).map fun l => ⟨l⟩

/-- The per-document outcome reported by `process_file`. -/
inductive ProcResult where
  | sectionNotFound
  | emptyExtraction
  | success (sentences : List String)
  deriving DecidableEq, Repr

/-- The decision structure of `process_file` on one parsed document: a falsy
(`None` or empty) extraction reports the section as not found; a nonempty
extraction with no surviving sentences reports an empty extraction. -/
def process_file (doc : List Node) : ProcResult :=
  match extract_item1a_content doc with
  | none => .sectionNotFound
  | some t =>
    if t = "" then .sectionNotFound
    else
      if (split_into_sentences t).isEmpty then .emptyExtraction
      else .success (split_into_sentences t)

/-- From the spec's words for the selection rule: the maximum-scoring
candidate, the earliest in document order among equal scores. -/
def firstMaxCand : List Cand → Option Cand
  | [] => none
  | c :: cs =>
    match firstMaxCand cs with
    | none => some c
    | some m => if m.1 > c.1 then some m else some c

/-- Combine an earlier best candidate with a later one: the later wins only
with a strictly greater score. -/
def pick : Option Cand → Option Cand → Option Cand
  | none, m => m
  | some a, none => some a
  | some a, some m => if m.1 > a.1 then some m else some a

/-- `score_candidate` with the `+50` standalone-element bonus removed,
matching the invocation where `text` is the element's own stripped text. -/
def scoreWithoutStandalone (e : Node) (rest : List Node) : Int :=
  let s1 : Int := if headingTags.contains e.tag then 30 else 0
  let s2 : Int := if e.tag = "p" ∨ e.tag = "div" then 20 else 0
  let s3 : Int := if inlineTags.contains e.tag then -20 else 0
  let s4 : Int := if hasIndicator (lowerChars e.text) then -100 else 0
  let s5 : Int :=
    match e.parentText with
    | none => 0
    | some pt => if pt.length < 500 ∧ hasIndicator (lowerChars pt) then -80 else 0
  let collected := collectNext rest 0 0
  let combined := (joinSep [' '] (collected.map String.data)).map Char.toLower
  let chars := (collected.map String.length).sum
  let s6 : Int := ((riskKeywords.filter fun k => containsSub k.data combined).length : Int) * 5
  let s7 : Int := if 1000 < chars then 30 else if 500 < chars then 15 else 0
  let s8 : Int := if nextItemHit combined then 20 else 0
  s1 + s2 + s3 + s4 + s5 + s6 + s7 + s8

/-! ### Proof-layer predicates -/

/-- Every whitespace character of the list is the ASCII space. -/
def wsIsSpace (l : List Char) : Prop := ∀ c ∈ l, pyWS c = true → c = ' '

/-- The first character, when present, is not whitespace. -/
def headNotWS (l : List Char) : Prop := ∀ c, l.head? = some c → pyWS c = false

/-- No adjacent pair of characters of the list satisfies `R`. -/
def noAdj (R : Char → Char → Prop) : List Char → Prop
  | a :: b :: t => ¬R a b ∧ noAdj R (b :: t)
  | _ => True

/-- No two adjacent whitespace characters. -/
def noWW : List Char → Prop := noAdj fun a b => pyWS a = true ∧ pyWS b = true

/-- Every character of the list is whitespace. -/
def allWS (l : List Char) : Prop := ∀ c ∈ l, pyWS c = true

/-- The characters that can occur in a lowercased text fully matching the
Item 1A heading pattern: whitespace, the letters of `item 1a risk factors`,
and the period. -/
def okChar (c : Char) : Prop :=
  pyWS c = true ∨
    c ∈ (['i', 't', 'e', 'm', '1', 'a', '.', 'r', 's', 'k', 'f', 'c', 'o'] : List Char)

/-- The decomposition of a lowercased character list fully matching the
Item 1A heading pattern: whitespace runs around the literal tokens, with
optional periods after `1a` and `factors`. -/
def item1aShape (l : List Char) : Prop :=
  ∃ w1 w2 d1 w3 w4 d2 w5 : List Char,
    l = w1 ++ (['i', 't', 'e', 'm'] ++ (w2 ++ (['1', 'a'] ++ (d1 ++ (w3 ++
      (['r', 'i', 's', 'k'] ++ (w4 ++ (['f', 'a', 'c', 't', 'o', 'r', 's'] ++
        (d2 ++ w5))))))))) ∧
    allWS w1 ∧ allWS w2 ∧ allWS w3 ∧ allWS w4 ∧ allWS w5 ∧
    (d1 = [] ∨ d1 = ['.']) ∧ (d2 = [] ∨ d2 = ['.'])

/-! ### Theorems -/

/-! #### Whitespace and normalizer lemmas -/

lemma noAdj_tail {R : Char → Char → Prop} {a : Char} {l : List Char}
    (h : noAdj R (a :: l)) : noAdj R l := by
  cases l with
  | nil => trivial
  | cons b t => exact h.2

lemma noAdj_cons_of {R : Char → Char → Prop} {a : Char} {l : List Char}
    (hhd : ∀ b, l.head? = some b → ¬R a b) (hl : noAdj R l) : noAdj R (a :: l) := by
  cases l with
  | nil => trivial
  | cons b t => exact ⟨hhd b rfl, hl⟩

lemma noAdj_head {R : Char → Char → Prop} {a b : Char} {l : List Char}
    (h : noAdj R (a :: l)) (hb : l.head? = some b) : ¬R a b := by
  cases l with
  | nil => simp at hb
  | cons c t =>
    simp only [List.head?_cons, Option.some.injEq] at hb
    exact hb ▸ h.1

lemma noAdj_append {R : Char → Char → Prop} :
    ∀ {u v : List Char}, noAdj R u → noAdj R v →
      (∀ a b, u.getLast? = some a → v.head? = some b → ¬R a b) →
      noAdj R (u ++ v)
  | [], v, _, hv, _ => hv
  | [a], v, _, hv, hj => by
    simpa using noAdj_cons_of (fun b hb => hj a b rfl hb) hv
  | a :: a' :: u', v, hu, hv, hj => by
    refine noAdj_cons_of ?_ (noAdj_append hu.2 hv (fun x y hx hy => hj x y ?_ hy))
    · intro b hb
      have hb' : a' = b := by simpa using hb
      subst hb'
      exact hu.1
    · rwa [List.getLast?_cons_cons]

lemma noWW_reverse {l : List Char} (h : noWW l) : noWW l.reverse := by
  induction l with
  | nil => trivial
  | cons c cs ih =>
    simp only [List.reverse_cons]
    refine noAdj_append (ih (noAdj_tail h)) trivial ?_
    intro a b ha hb
    have hb' : c = b := by simpa using hb
    subst hb'
    rw [List.getLast?_reverse] at ha
    have := noAdj_head h ha
    exact fun hr => this ⟨hr.2, hr.1⟩

lemma noAdj_dropWhile {R : Char → Char → Prop} {p : Char → Bool} :
    ∀ {l : List Char}, noAdj R l → noAdj R (l.dropWhile p)
  | [], _ => trivial
  | c :: cs, h => by
    rw [List.dropWhile_cons]
    split
    · exact noAdj_dropWhile (noAdj_tail h)
    · exact h

lemma wsIsSpace_sub {l l' : List Char} (hsub : ∀ c ∈ l', c ∈ l)
    (h : wsIsSpace l) : wsIsSpace l' :=
  fun c hc => h c (hsub c hc)

lemma head?_dropWhile_not {p : Char → Bool} :
    ∀ {l : List Char} {c : Char}, (l.dropWhile p).head? = some c → p c = false
  | [], c, h => by simp at h
  | a :: l, c, h => by
    rw [List.dropWhile_cons] at h
    split at h
    · exact head?_dropWhile_not h
    · simp only [List.head?_cons, Option.some.injEq] at h
      subst h
      simp_all
  termination_by l => l.length

lemma dropWhile_eq_self_of_head {p : Char → Bool} {l : List Char}
    (h : ∀ c, l.head? = some c → p c = false) : l.dropWhile p = l := by
  cases l with
  | nil => rfl
  | cons c cs => rw [List.dropWhile_cons, h c rfl]; simp

lemma wsIsSpace_collapseAux : ∀ (b : Bool) (l : List Char), wsIsSpace (collapseAux b l)
  | _, [] => by intro c hc; simp [collapseAux] at hc
  | b, c :: cs => by
    intro d hd hw
    unfold collapseAux at hd
    split at hd
    · split at hd
      · exact wsIsSpace_collapseAux true cs d hd hw
      · rcases List.mem_cons.1 hd with h | h
        · exact h
        · exact wsIsSpace_collapseAux true cs d h hw
    · rcases List.mem_cons.1 hd with h | h
      · subst h; simp_all
      · exact wsIsSpace_collapseAux false cs d h hw

lemma head?_collapseAux_true {cs : List Char} {c : Char}
    (h : (collapseAux true cs).head? = some c) : pyWS c = false := by
  induction cs with
  | nil => simp [collapseAux] at h
  | cons d ds ih =>
    unfold collapseAux at h
    split at h
    · simp only [if_pos rfl] at h
      exact ih h
    · simp only [List.head?_cons, Option.some.injEq] at h
      subst h
      simp_all

lemma noWW_collapseAux : ∀ (b : Bool) (l : List Char), noWW (collapseAux b l)
  | _, [] => trivial
  | b, c :: cs => by
    unfold collapseAux
    split
    · split
      · exact noWW_collapseAux true cs
      · refine noAdj_cons_of ?_ (noWW_collapseAux true cs)
        intro d hd hr
        exact absurd hr.2 (by simp [head?_collapseAux_true hd])
    · refine noAdj_cons_of ?_ (noWW_collapseAux false cs)
      intro d hd hr
      simp_all

lemma collapseAux_eq_self :
    ∀ {l : List Char} (b : Bool), wsIsSpace l → noWW l →
      (b = true → headNotWS l) → collapseAux b l = l
  | [], _, _, _, _ => rfl
  | c :: cs, b, hws, hnw, hh => by
    unfold collapseAux
    split
    · rename_i hc
      cases b with
      | true => exact absurd (hh rfl c rfl) (by simp [hc])
      | false =>
        have hc' : c = ' ' := hws c (List.mem_cons_self _ _) hc
        have htail : collapseAux true cs = cs := by
          refine collapseAux_eq_self true
            (wsIsSpace_sub (fun d hd => List.mem_cons_of_mem c hd) hws)
            (noAdj_tail hnw) (fun _ => ?_)
          intro d hd
          by_contra hdw
          exact noAdj_head hnw hd ⟨hc, by simpa using hdw⟩
        rw [htail, hc']
        simp
    · rename_i hc
      have htail : collapseAux false cs = cs :=
        collapseAux_eq_self false
          (wsIsSpace_sub (fun d hd => List.mem_cons_of_mem c hd) hws)
          (noAdj_tail hnw) (fun h => nomatch h)
      rw [htail]

lemma map_nbspFix_eq_self {l : List Char} (h : wsIsSpace l) : l.map nbspFix = l := by
  induction l with
  | nil => rfl
  | cons c cs ih =>
    have hc : nbspFix c = c := by
      by_cases hx : c = '\xa0'
      · subst hx
        exact absurd (h _ (List.mem_cons_self _ _) (by decide)) (by decide)
      · simp [nbspFix, hx]
    rw [List.map_cons, hc, ih (wsIsSpace_sub (fun d hd => List.mem_cons_of_mem c hd) h)]

lemma pyStrip_wsIsSpace {l : List Char} (h : wsIsSpace l) : wsIsSpace (pyStrip l) := by
  refine wsIsSpace_sub ?_ h
  intro c hc
  unfold pyStrip at hc
  rw [List.mem_reverse] at hc
  have h1 := ((List.dropWhile_suffix pyWS).sublist).subset hc
  rw [List.mem_reverse] at h1
  exact ((List.dropWhile_suffix pyWS).sublist).subset h1

lemma pyStrip_noWW {l : List Char} (h : noWW l) : noWW (pyStrip l) :=
  noWW_reverse (noAdj_dropWhile (noWW_reverse (noAdj_dropWhile h)))

lemma pyStrip_lastNotWS {l : List Char} : headNotWS (pyStrip l).reverse := by
  intro c hc
  unfold pyStrip at hc
  rw [List.reverse_reverse] at hc
  exact head?_dropWhile_not hc

lemma pyStrip_headNotWS {l : List Char} : headNotWS (pyStrip l) := by
  intro c hc
  unfold pyStrip at hc
  have hq : (l.dropWhile pyWS).reverse =
      ((l.dropWhile pyWS).reverse.takeWhile pyWS) ++
        ((l.dropWhile pyWS).reverse.dropWhile pyWS) :=
    (List.takeWhile_append_dropWhile ..).symm
  have hl : l.dropWhile pyWS =
      ((l.dropWhile pyWS).reverse.dropWhile pyWS).reverse ++
        ((l.dropWhile pyWS).reverse.takeWhile pyWS).reverse := by
    have h2 := congrArg List.reverse hq
    rwa [List.reverse_reverse, List.reverse_append] at h2
  cases hr : ((l.dropWhile pyWS).reverse.dropWhile pyWS).reverse with
  | nil => rw [hr] at hc; simp at hc
  | cons d t =>
    rw [hr] at hc hl
    have hc' : d = c := by simpa using hc
    subst hc'
    have hd : (l.dropWhile pyWS).head? = some d := by
      rw [hl]; rfl
    exact head?_dropWhile_not hd

lemma pyStrip_eq_self {l : List Char} (h1 : headNotWS l) (h2 : headNotWS l.reverse) :
    pyStrip l = l := by
  unfold pyStrip
  rw [dropWhile_eq_self_of_head h1, dropWhile_eq_self_of_head h2,
    List.reverse_reverse]

lemma clean_text_data (s : String) :
    (clean_text s).data = pyStrip (collapseAux false s.data) := by
  unfold clean_text collapseWS
  rw [map_nbspFix_eq_self (wsIsSpace_collapseAux false s.data)]

lemma clean_text_good (s : String) :
    wsIsSpace (clean_text s).data ∧ noWW (clean_text s).data ∧
      headNotWS (clean_text s).data ∧ headNotWS (clean_text s).data.reverse := by
  rw [clean_text_data]
  exact ⟨pyStrip_wsIsSpace (wsIsSpace_collapseAux false s.data),
    pyStrip_noWW (noWW_collapseAux false s.data),
    pyStrip_headNotWS, pyStrip_lastNotWS⟩

lemma clean_text_fixed {l : List Char} (h1 : wsIsSpace l) (h2 : noWW l)
    (h3 : headNotWS l) (h4 : headNotWS l.reverse) :
    clean_text ⟨l⟩ = ⟨l⟩ := by
  unfold clean_text collapseWS
  rw [show (String.mk l).data = l from rfl,
    collapseAux_eq_self false h1 h2 (fun h => nomatch h),
    map_nbspFix_eq_self h1, pyStrip_eq_self h3 h4]

/-- Claim C7: the text normalizer is idempotent, and its output has every
whitespace character equal to the ASCII space (so no non-breaking spaces),
no two adjacent whitespace characters (runs are collapsed), and no leading
or trailing whitespace. -/
theorem c7_normalize_idempotent (s : String) :
    clean_text (clean_text s) = clean_text s ∧
      wsIsSpace (clean_text s).data ∧ noWW (clean_text s).data ∧
      headNotWS (clean_text s).data ∧ headNotWS (clean_text s).data.reverse := by
  obtain ⟨h1, h2, h3, h4⟩ := clean_text_good s
  refine ⟨?_, h1, h2, h3, h4⟩
  have : clean_text s = ⟨(clean_text s).data⟩ := rfl
  rw [this]
  exact clean_text_fixed h1 h2 h3 h4

/-! #### Candidate selection lemmas -/

lemma pick_none_left (m : Option Cand) : pick none m = m := rfl

lemma pick_assoc (a b c : Option Cand) : pick (pick a b) c = pick a (pick b c) := by
  rcases a with _ | x <;> rcases b with _ | y <;> rcases c with _ | z <;>
      simp only [pick] <;>
    repeat' first
      | rfl
      | (exfalso; omega)
      | (split_ifs <;> (try simp only [pick]))

lemma head?_insertDesc (x : Cand) (l : List Cand) :
    (insertDesc x l).head? = pick l.head? (some x) := by
  cases l with
  | nil => rfl
  | cons y ys =>
    simp only [insertDesc, pick]
    split_ifs with h <;> simp [h]

lemma firstMaxCand_cons (c : Cand) (cs : List Cand) :
    firstMaxCand (c :: cs) = pick (some c) (firstMaxCand cs) := by
  simp only [firstMaxCand]
  cases firstMaxCand cs <;> rfl

lemma foldl_insertDesc_head? :
    ∀ (l acc : List Cand),
      (l.foldl (fun acc c => insertDesc c acc) acc).head? =
        pick acc.head? (firstMaxCand l)
  | [], acc => by
    cases acc <;> rfl
  | c :: cs, acc => by
    rw [List.foldl_cons, foldl_insertDesc_head? cs (insertDesc c acc),
      head?_insertDesc, pick_assoc, ← firstMaxCand_cons]

lemma sortCandidates_head? (l : List Cand) :
    (sortCandidates l).head? = firstMaxCand l := by
  unfold sortCandidates
  rw [foldl_insertDesc_head?]
  rfl

lemma firstMaxCand_eq_none {l : List Cand} : firstMaxCand l = none ↔ l = [] := by
  cases l with
  | nil => simp [firstMaxCand]
  | cons c cs =>
    rw [firstMaxCand_cons]
    cases firstMaxCand cs with
    | none => simp [pick]
    | some m =>
      simp only [pick]
      split_ifs <;> simp

lemma firstMaxCand_spec :
    ∀ {l : List Cand} {m : Cand}, firstMaxCand l = some m →
      ∃ pre suf, l = pre ++ m :: suf ∧ (∀ c ∈ pre, c.1 < m.1) ∧
        ∀ c ∈ l, c.1 ≤ m.1
  | [], m, h => by simp [firstMaxCand] at h
  | c :: cs, m, h => by
    rw [firstMaxCand_cons] at h
    cases hcs : firstMaxCand cs with
    | none =>
      rw [hcs] at h
      have hc : c = m := by simpa [pick] using h
      subst hc
      rcases firstMaxCand_eq_none.1 hcs with rfl
      exact ⟨[], [], rfl, by simp, by simp⟩
    | some m' =>
      rw [hcs] at h
      simp only [pick] at h
      split_ifs at h with hgt
      · have hm : m' = m := by simpa using h
        subst hm
        obtain ⟨pre, suf, heq, hpre, hall⟩ := firstMaxCand_spec hcs
        refine ⟨c :: pre, suf, by rw [heq]; rfl, ?_, ?_⟩
        · intro x hx
          rcases List.mem_cons.1 hx with rfl | hx
          · exact hgt
          · exact hpre x hx
        · intro x hx
          rcases List.mem_cons.1 hx with rfl | hx
          · exact le_of_lt hgt
          · exact hall x hx
      · have hc : c = m := by simpa using h
        subst hc
        obtain ⟨_, _, _, _, hall⟩ := firstMaxCand_spec hcs
        refine ⟨[], cs, rfl, by simp, ?_⟩
        intro x hx
        rcases List.mem_cons.1 hx with rfl | hx
        · exact le_refl _
        · exact le_trans (hall x hx) (not_lt.1 hgt)

/-- Claim C4: `find_item1a_start` agrees with the spec-side selection rule:
the maximum-scoring candidate, earliest in document order among equal
scores, accepted only when its score is strictly positive; and that
selected candidate is preceded only by strictly lower-scoring candidates
and bounds the scores of all candidates. -/
theorem c4_selection (doc : List Node) :
    (find_item1a_start doc =
      match firstMaxCand (rawCandidates doc) with
      | none => none
      | some m => if m.1 > 0 then some m else none) ∧
      ∀ m, firstMaxCand (rawCandidates doc) = some m →
        ∃ pre suf, rawCandidates doc = pre ++ m :: suf ∧
          (∀ c ∈ pre, c.1 < m.1) ∧ ∀ c ∈ rawCandidates doc, c.1 ≤ m.1 := by
  constructor
  · unfold find_item1a_start find_all_item1a_candidates
    have hh := sortCandidates_head? (rawCandidates doc)
    cases hs : sortCandidates (rawCandidates doc) with
    | nil =>
      rw [hs] at hh
      rw [← hh]
      rfl
    | cons c rest =>
      rw [hs] at hh
      rw [← hh]
      rfl
  · intro m hm
    exact firstMaxCand_spec hm

/-- Witness for C4: on a two-candidate document the earliest of the two
differently-scored candidates is the selected maximum, preceded by nothing
and bounding every candidate's score. -/
theorem c4_selection_witness :
    ∃ pre suf,
      rawCandidates
          [⟨"p", "Item 1A. Risk Factors", "Item 1A. Risk Factors", none⟩,
            ⟨"p", "Item 1A. Risk Factors", "Item 1A. Risk Factors", none⟩] =
        pre ++ ((80 : Int),
          (⟨"p", "Item 1A. Risk Factors", "Item 1A. Risk Factors", none⟩ : Node),
          [(⟨"p", "Item 1A. Risk Factors", "Item 1A. Risk Factors", none⟩ : Node)]) :: suf ∧
        (∀ c ∈ pre, c.1 < (80 : Int)) ∧
        ∀ c ∈ rawCandidates
            [⟨"p", "Item 1A. Risk Factors", "Item 1A. Risk Factors", none⟩,
              ⟨"p", "Item 1A. Risk Factors", "Item 1A. Risk Factors", none⟩],
          c.1 ≤ (80 : Int) :=
  (c4_selection
      [⟨"p", "Item 1A. Risk Factors", "Item 1A. Risk Factors", none⟩,
        ⟨"p", "Item 1A. Risk Factors", "Item 1A. Risk Factors", none⟩]).2
    _ (by decide)

/-! #### Sentence list invariants -/

lemma mem_pyStrip {l : List Char} {c : Char} (h : c ∈ pyStrip l) : c ∈ l := by
  unfold pyStrip at h
  rw [List.mem_reverse] at h
  have h1 := ((List.dropWhile_suffix pyWS).sublist).subset h
  rw [List.mem_reverse] at h1
  exact ((List.dropWhile_suffix pyWS).sublist).subset h1

lemma pyStrip_idem (l : List Char) : pyStrip (pyStrip l) = pyStrip l :=
  pyStrip_eq_self pyStrip_headNotWS pyStrip_lastNotWS

lemma mem_split_into_sentences {t s : String}
    (h : s ∈ split_into_sentences t) :
    ∃ part raw, part ∈ splitMarker [] (replaceBullets t.data) ∧
      raw ∈ sentSplitAux [] false [] part ∧
      s = ⟨pyStrip raw⟩ ∧ 3 < (pyStrip raw).length := by
  unfold split_into_sentences at h
  rw [List.mem_flatten] at h
  obtain ⟨ps, hps, hs⟩ := h
  rw [List.mem_map] at hps
  obtain ⟨part, hpart, rfl⟩ := hps
  unfold processPart at hs
  split at hs
  · exact absurd hs (by simp)
  · rw [List.mem_filterMap] at hs
    obtain ⟨raw, hraw, hcond⟩ := hs
    split at hcond
    · exact ⟨part, raw, hpart, hraw, (Option.some.inj hcond).symm, by assumption⟩
    · exact absurd hcond (by simp)

lemma mem_sentSplitAux :
    ∀ {l acc buf piece : List Char} {prevPunct : Bool} {c : Char},
      piece ∈ sentSplitAux acc prevPunct buf l → c ∈ piece →
      c ∈ acc ∨ c ∈ buf ∨ c ∈ l
  | [], acc, buf, piece, prevPunct, c => by
    intro hp hc
    unfold sentSplitAux at hp
    rcases eq_or_ne buf [] with rfl | hb
    · rw [if_pos rfl] at hp
      cases prevPunct with
      | true =>
        rw [if_pos rfl] at hp
        rcases List.mem_cons.1 hp with rfl | hp
        · exact Or.inl (List.mem_reverse.1 hc)
        · have hpp : piece = [] := by simpa using hp
          subst hpp
          simp at hc
      | false =>
        rw [if_neg Bool.false_ne_true] at hp
        have hpp : piece = acc.reverse := by simpa using hp
        subst hpp
        exact Or.inl (List.mem_reverse.1 hc)
    · rw [if_neg hb] at hp
      rcases eq_or_ne buf ['\n'] with rfl | hb2
      · rw [if_pos rfl] at hp
        rcases List.mem_cons.1 hp with rfl | hp
        · exact Or.inl (List.mem_reverse.1 hc)
        · have hpp : piece = ['\n'] := by simpa using hp
          subst hpp
          exact Or.inr (Or.inl hc)
      · rw [if_neg hb2] at hp
        have hpp : piece = (buf ++ acc).reverse := by simpa using hp
        subst hpp
        rcases List.mem_append.1 (List.mem_reverse.1 hc) with h | h
        · exact Or.inr (Or.inl h)
        · exact Or.inl h
  | a :: l, acc, buf, piece, prevPunct, c => by
    intro hp hc
    unfold sentSplitAux at hp
    cases buf with
    | nil =>
      dsimp only at hp
      split_ifs at hp with h1
      · rcases mem_sentSplitAux hp hc with h | h | h
        · exact Or.inl h
        · have hca : c = a := by simpa using h
          exact Or.inr (Or.inr (by simp [hca]))
        · exact Or.inr (Or.inr (List.mem_cons_of_mem a h))
      · rcases mem_sentSplitAux hp hc with h | h | h
        · rcases List.mem_cons.1 h with rfl | h
          · exact Or.inr (Or.inr (List.mem_cons_self ..))
          · exact Or.inl h
        · simp at h
        · exact Or.inr (Or.inr (List.mem_cons_of_mem a h))
    | cons b bs =>
      dsimp only at hp
      split_ifs at hp with h1 h2
      · rcases mem_sentSplitAux hp hc with h | h | h
        · exact Or.inl h
        · rcases List.mem_cons.1 h with rfl | h
          · exact Or.inr (Or.inr (List.mem_cons_self ..))
          · exact Or.inr (Or.inl h)
        · exact Or.inr (Or.inr (List.mem_cons_of_mem a h))
      · rcases List.mem_cons.1 hp with rfl | hp
        · exact Or.inl (List.mem_reverse.1 hc)
        · rcases mem_sentSplitAux hp hc with h | h | h
          · have hca : c = a := by simpa using h
            exact Or.inr (Or.inr (by simp [hca]))
          · simp at h
          · exact Or.inr (Or.inr (List.mem_cons_of_mem a h))
      · rcases mem_sentSplitAux hp hc with h | h | h
        · rcases List.mem_cons.1 h with rfl | h
          · exact Or.inr (Or.inr (List.mem_cons_self ..))
          · rcases List.mem_append.1 h with h | h
            · exact Or.inr (Or.inl h)
            · exact Or.inl h
        · simp at h
        · exact Or.inr (Or.inr (List.mem_cons_of_mem a h))

lemma mem_splitMarkerAux :
    ∀ {l : List Char} {skip : Nat} {acc piece : List Char} {c : Char},
      piece ∈ splitMarkerAux skip acc l → c ∈ piece → c ∈ acc ∨ c ∈ l
  | [], skip, acc, piece, c => by
    intro hp hc
    have : piece = acc.reverse := by simpa [splitMarkerAux] using hp
    subst this
    exact Or.inl (List.mem_reverse.1 hc)
  | a :: l, skip, acc, piece, c => by
    intro hp hc
    unfold splitMarkerAux at hp
    cases skip with
    | succ k =>
      rcases mem_splitMarkerAux hp hc with h | h
      · exact Or.inl h
      · exact Or.inr (List.mem_cons_of_mem a h)
    | zero =>
      split_ifs at hp with h1
      · rcases List.mem_cons.1 hp with rfl | hp
        · exact Or.inl (List.mem_reverse.1 hc)
        · rcases mem_splitMarkerAux hp hc with h | h
          · simp at h
          · exact Or.inr (List.mem_cons_of_mem a h)
      · rcases mem_splitMarkerAux hp hc with h | h
        · rcases List.mem_cons.1 h with rfl | h
          · exact Or.inr (List.mem_cons_self ..)
          · exact Or.inl h
        · exact Or.inr (List.mem_cons_of_mem a h)

lemma mem_replaceBullets {l : List Char} {c : Char} (h : c ∈ replaceBullets l) :
    c ∈ l ∨ c ∈ markerChars := by
  unfold replaceBullets at h
  rw [List.mem_flatten] at h
  obtain ⟨sub, hsub, hc⟩ := h
  rw [List.mem_map] at hsub
  obtain ⟨a, ha, rfl⟩ := hsub
  split at hc
  · exact Or.inr hc
  · have : c = a := by simpa using hc
    exact Or.inl (this ▸ ha)

lemma extract_is_clean {doc : List Node} {t : String}
    (h : extract_item1a_content doc = some t) : ∃ u, t = clean_text u := by
  unfold extract_item1a_content at h
  split at h
  · exact absurd h (by simp)
  · exact ⟨_, (Option.some.inj h).symm⟩

lemma process_success {doc : List Node} {ss : List String}
    (h : process_file doc = ProcResult.success ss) :
    ∃ t, extract_item1a_content doc = some t ∧ ss = split_into_sentences t := by
  unfold process_file at h
  split at h
  · exact absurd h (by simp)
  · rename_i t ht
    split_ifs at h
    exact ⟨t, ht, by injection h with h2; exact h2.symm⟩

/-- Claim C8: every sentence produced by the splitter is already stripped
(no leading or trailing whitespace) and longer than 3 characters; and every
sentence of a list produced by the full pipeline contains no raw
non-breaking-space character. -/
theorem c8_sentence_invariants :
    (∀ t s : String, s ∈ split_into_sentences t →
        pyStrip s.data = s.data ∧ 3 < s.data.length) ∧
      ∀ (doc : List Node) (ss : List String),
        process_file doc = ProcResult.success ss →
        ∀ s ∈ ss, '\xa0' ∉ s.data := by
  constructor
  · intro t s hs
    obtain ⟨part, raw, -, -, rfl, hlen⟩ := mem_split_into_sentences hs
    exact ⟨by simpa using pyStrip_idem raw, by simpa using hlen⟩
  · intro doc ss hp s hs hmem
    obtain ⟨t, hx, rfl⟩ := process_success hp
    obtain ⟨u, rfl⟩ := extract_is_clean hx
    obtain ⟨part, raw, hpart, hraw, hsd, -⟩ := mem_split_into_sentences hs
    have hc1 : '\xa0' ∈ pyStrip raw := by
      have : s.data = pyStrip raw := by rw [hsd]
      rwa [this] at hmem
    have hc2 : '\xa0' ∈ raw := mem_pyStrip hc1
    rcases mem_sentSplitAux hraw hc2 with h | h | h
    · simp at h
    · simp at h
    · rcases mem_splitMarkerAux hpart h with h' | h'
      · simp at h'
      · rcases mem_replaceBullets h' with h'' | h''
        · have := (clean_text_good u).1 '\xa0' h'' (by decide)
          exact absurd this (by decide)
        · exact absurd h'' (by decide)

/-- Witness for C8: a concrete splitter output is stripped and long enough,
and a concrete pipeline success contains no non-breaking space. -/
theorem c8_sentence_invariants_witness :
    (pyStrip "Hello there.".data = "Hello there.".data ∧
        3 < "Hello there.".data.length) ∧
      '\xa0' ∉ "Company faces many risks ahead.".data :=
  ⟨c8_sentence_invariants.1 "Hello there." "Hello there." (by decide),
    c8_sentence_invariants.2
      [⟨"h1", "Item 1A. Risk Factors", "Item 1A. Risk Factors",
        some "Item 1A. Risk Factors"⟩,
        ⟨"p", "Company faces many risks ahead.",
          "Company faces many risks ahead.", some "x"⟩]
      ["Company faces many risks ahead."] (by decide)
      "Company faces many risks ahead." (by decide)⟩

/-- Claim C9: the sentence splitter applied to the bullet-separated sample
text returns exactly the three expected sentences, in order. -/
theorem c9_split_scenario :
    split_into_sentences
        "Risks include economic downturn. • Supply chain disruption. • Regulatory changes." =
      ["Risks include economic downturn.", "Supply chain disruption.",
        "Regulatory changes."] := by
  decide

/-! #### Candidate enumeration lemmas -/

lemma mem_insertDesc {x y : Cand} {l : List Cand} :
    x ∈ insertDesc y l ↔ x = y ∨ x ∈ l := by
  induction l with
  | nil => simp [insertDesc]
  | cons z zs ih =>
    simp only [insertDesc]
    split_ifs
    · simp [List.mem_cons]
    · simp only [List.mem_cons, ih]
      tauto

lemma mem_foldl_insertDesc :
    ∀ {l acc : List Cand} {c : Cand},
      c ∈ l.foldl (fun acc x => insertDesc x acc) acc ↔ c ∈ acc ∨ c ∈ l
  | [], acc, c => by simp
  | x :: xs, acc, c => by
    rw [List.foldl_cons, mem_foldl_insertDesc, mem_insertDesc]
    simp only [List.mem_cons]
    tauto

lemma mem_sortCandidates {c : Cand} {l : List Cand} :
    c ∈ sortCandidates l ↔ c ∈ l := by
  unfold sortCandidates
  rw [mem_foldl_insertDesc]
  simp

lemma rawCandidates_map (doc : List Node) :
    (rawCandidates doc).map (fun c => c.2.1) =
      doc.filter fun n => searchTags.contains n.tag && matchesItem1A n.text := by
  induction doc with
  | nil => rfl
  | cons n ns ih =>
    simp only [rawCandidates, List.filter_cons]
    cases hb : searchTags.contains n.tag && matchesItem1A n.text with
    | true =>
      rw [Bool.and_eq_true] at hb
      rw [if_pos ⟨hb.1, hb.2⟩]
      simp [ih]
    | false =>
      have hnb : ¬(searchTags.contains n.tag = true ∧ matchesItem1A n.text = true) := by
        intro h
        rw [h.1, h.2] at hb
        exact absurd hb (by simp)
      rw [if_neg hnb]
      simpa using ih

/-- Claim C2, amended: the scan of `find_all_item1a_candidates` enumerates,
in document order, exactly the nodes whose tag is in the searched tag set
(`p`, `div`, `h1`-`h6`, `span`, `td`) and whose own displayed text matches a
heading pattern; matching nodes of other tags are omitted.  Sorting the
candidates changes membership in neither direction. -/
theorem c2_amended (doc : List Node) :
    (rawCandidates doc).map (fun c => c.2.1) =
      (doc.filter fun n => searchTags.contains n.tag && matchesItem1A n.text) ∧
      ∀ c, c ∈ find_all_item1a_candidates doc ↔ c ∈ rawCandidates doc := by
  refine ⟨rawCandidates_map doc, fun c => ?_⟩
  unfold find_all_item1a_candidates
  exact mem_sortCandidates

/-- Witness for C2: on a two-node document the sorted candidate list
contains the scored `p` node, by the membership equivalence. -/
theorem c2_amended_witness :
    ((70 : Int), (⟨"p", "Item 1A. Risk Factors", "Item 1A. Risk Factors", none⟩ : Node),
        ([] : List Node)) ∈
      find_all_item1a_candidates
        [⟨"b", "Item 1A. Risk Factors", "Item 1A. Risk Factors", none⟩,
          ⟨"p", "Item 1A. Risk Factors", "Item 1A. Risk Factors", none⟩] :=
  ((c2_amended
      [⟨"b", "Item 1A. Risk Factors", "Item 1A. Risk Factors", none⟩,
        ⟨"p", "Item 1A. Risk Factors", "Item 1A. Risk Factors", none⟩]).2 _).mpr
    (by decide)

/-- Claim C2, counterexample: a `b`-tagged node whose displayed text matches
the heading pattern is omitted from the candidate list, because the search
only visits a fixed tag set. -/
theorem c2_counterexample :
    matchesItem1A "Item 1A. Risk Factors" = true ∧
      find_all_item1a_candidates
          [⟨"b", "Item 1A. Risk Factors", "Item 1A. Risk Factors",
            some "Item 1A. Risk Factors"⟩] = [] := by
  decide

/-! #### Section-end lemmas -/

lemma find?_eq_some_decomp {p : Node → Bool} :
    ∀ {l : List Node} {n : Node},
      l.find? p = some n ↔
        p n = true ∧ ∃ pre suf, l = pre ++ n :: suf ∧ ∀ m ∈ pre, p m = false
  | [], n => by
    simp only [List.find?_nil]
    constructor
    · intro h
      exact absurd h (by simp)
    · rintro ⟨-, pre, suf, h, -⟩
      exact absurd (congrArg List.length h) (by simp [List.length_append]; omega)
  | a :: t, n => by
    rw [List.find?_cons]
    cases ha : p a with
    | true =>
      simp only [Option.some.injEq]
      constructor
      · rintro rfl
        exact ⟨ha, [], t, rfl, by simp⟩
      · rintro ⟨hn, pre, suf, heq, hpre⟩
        cases pre with
        | nil =>
          simpa using congrArg (List.head? ·) heq
        | cons b pre' =>
          have hb : a = b := by simpa using congrArg (List.head? ·) heq
          subst hb
          exact absurd ha (by simp [hpre a (by simp)])
    | false =>
      rw [find?_eq_some_decomp]
      constructor
      · rintro ⟨hn, pre, suf, heq, hpre⟩
        refine ⟨hn, a :: pre, suf, by rw [heq]; rfl, ?_⟩
        intro m hm
        rcases List.mem_cons.1 hm with rfl | hm
        · exact ha
        · exact hpre m hm
      · rintro ⟨hn, pre, suf, heq, hpre⟩
        cases pre with
        | nil =>
          have : a = n := by simpa using congrArg (List.head? ·) heq
          subst this
          exact absurd ha (by simp [hn])
        | cons b pre' =>
          have hb : a = b := by simpa using congrArg (List.head? ·) heq
          subst hb
          have ht : t = pre' ++ n :: suf := by simpa using heq
          exact ⟨hn, pre', suf, ht, fun m hm => hpre m (List.mem_cons_of_mem a hm)⟩

/-- Claim C5, amended: `find_next_major_section`, scanning forward over
nodes with tags `p`/`div`/`span`/`td`/`h1`-`h6`, returns the first node
whose own text begins (after optional whitespace) with `ITEM 1B`, or with
`ITEM 2` where the `2` is immediately followed by a non-digit character (so
a node whose entire text is `Item 2` does not end the section, nor does
`Item 20`, but `Item 2.` or `Item 2` followed by a newline does), and
returns none exactly when no such node exists before the document ends. -/
theorem c5_amended :
    (∀ (rest : List Node) (n : Node),
        find_next_major_section rest = some n ↔
          (endTags.contains n.tag = true ∧ matchesEnd n.text = true) ∧
            ∃ pre suf, rest = pre ++ n :: suf ∧
              ∀ m ∈ pre, ¬(endTags.contains m.tag = true ∧ matchesEnd m.text = true)) ∧
      (∀ rest : List Node, find_next_major_section rest = none ↔
          ∀ n ∈ rest, ¬(endTags.contains n.tag = true ∧ matchesEnd n.text = true)) ∧
      matchesEnd "Item 1B" = true ∧ matchesEnd "  item 2." = true ∧
      matchesEnd "Item 2\n" = true ∧
      matchesEnd "Item 2" = false ∧ matchesEnd "Item 20" = false := by
  have hiff : ∀ n : Node, isEndNode n = true ↔
      (endTags.contains n.tag = true ∧ matchesEnd n.text = true) := by
    intro n
    simp [isEndNode]
  have hiff' : ∀ n : Node, isEndNode n = false ↔
      ¬(endTags.contains n.tag = true ∧ matchesEnd n.text = true) := by
    intro n
    rw [← hiff]
    simp
  refine ⟨?_, ?_, by decide, by decide, by decide, by decide, by decide⟩
  · intro rest n
    unfold find_next_major_section
    rw [find?_eq_some_decomp, hiff]
    constructor
    · rintro ⟨h1, pre, suf, heq, hpre⟩
      exact ⟨h1, pre, suf, heq, fun m hm => (hiff' m).1 (hpre m hm)⟩
    · rintro ⟨h1, pre, suf, heq, hpre⟩
      exact ⟨h1, pre, suf, heq, fun m hm => (hiff' m).2 (hpre m hm)⟩
  · intro rest
    unfold find_next_major_section
    rw [List.find?_eq_none]
    constructor
    · intro h n hn
      exact (hiff' n).1 (by simpa using h n hn)
    · intro h n hn
      simpa using (hiff' n).2 (h n hn)

/-- Claim C5, counterexample: a node whose entire text is `Item 2` does not
end the section, because `ITEM\s*2[^0-9]` requires a character after the 2. -/
theorem c5_counterexample :
    matchesEnd "Item 2" = false ∧
      find_next_major_section [⟨"p", "Item 2", "Item 2", none⟩] = none := by
  decide

/-- Witness for C5: the scan returns the first end-pattern node after a
non-matching node. -/
theorem c5_amended_witness :
    find_next_major_section
        [⟨"span", "hello", "hello", none⟩,
          ⟨"p", "Item 1B UNRESOLVED STAFF COMMENTS", "x", none⟩] =
      some ⟨"p", "Item 1B UNRESOLVED STAFF COMMENTS", "x", none⟩ :=
  (c5_amended.1
      [⟨"span", "hello", "hello", none⟩,
        ⟨"p", "Item 1B UNRESOLVED STAFF COMMENTS", "x", none⟩]
      ⟨"p", "Item 1B UNRESOLVED STAFF COMMENTS", "x", none⟩).mpr
    ⟨by decide, [⟨"span", "hello", "hello", none⟩], [], rfl, by decide⟩


/-- Claim C3, amended: the reported outcomes partition as follows: the
"section not found" failure is reported exactly when no start heading is
accepted or when the located section's filtered text is empty (the empty
string is falsy), the "no sentences extracted" failure exactly when the
located section's text is nonempty but no sentence survives filtering, and
success otherwise; so an extraction whose boundaries were located but whose
text is empty is conflated with the missing-section failure. -/
theorem c3_amended (doc : List Node) :
    (process_file doc = ProcResult.sectionNotFound ↔
        extract_item1a_content doc = none ∨ extract_item1a_content doc = some "") ∧
      (process_file doc = ProcResult.emptyExtraction ↔
        ∃ t, extract_item1a_content doc = some t ∧ t ≠ "" ∧
          split_into_sentences t = []) ∧
      ∀ ss, process_file doc = ProcResult.success ss ↔
        ∃ t, extract_item1a_content doc = some t ∧ t ≠ "" ∧
          split_into_sentences t = ss ∧ ss ≠ [] := by
  unfold process_file
  cases hx : extract_item1a_content doc with
  | none =>
    refine ⟨by simp, ?_, ?_⟩
    · simp
    · intro ss
      simp
  | some t =>
    by_cases ht : t = ""
    · subst ht
      refine ⟨by simp, ?_, ?_⟩
      · simp only [if_pos rfl]
        constructor
        · intro h
          exact absurd h (by simp)
        · rintro ⟨u, hu, hne, -⟩
          exact absurd (by simpa using hu) (Ne.symm hne)
      · intro ss
        simp only [if_pos rfl]
        constructor
        · intro h
          exact absurd h (by simp)
        · rintro ⟨u, hu, hne, -⟩
          exact absurd (by simpa using hu) (Ne.symm hne)
    · simp only [if_neg ht]
      by_cases hs : (split_into_sentences t).isEmpty
      · simp only [if_pos hs]
        refine ⟨by simp [ht], ?_, ?_⟩
        · simp only [true_iff]
          exact ⟨t, rfl, ht, List.isEmpty_iff.1 hs⟩
        · intro ss
          constructor
          · intro h
            exact absurd h (by simp)
          · rintro ⟨u, hu, -, hsplit, hne⟩
            have hut : t = u := by simpa using hu
            subst hut
            exact absurd (hsplit ▸ List.isEmpty_iff.1 hs) (by simpa using hne.symm)
      · simp only [if_neg hs]
        refine ⟨by simp [ht], ?_, ?_⟩
        · constructor
          · intro h
            exact absurd h (by simp)
          · rintro ⟨u, hu, -, hsplit⟩
            have hut : t = u := by simpa using hu
            subst hut
            exact absurd hsplit (by simpa using hs)
        · intro ss
          simp only [ProcResult.success.injEq]
          constructor
          · rintro rfl
            exact ⟨t, rfl, ht, rfl, by simpa using hs⟩
          · rintro ⟨u, hu, -, hsplit, -⟩
            have hut : t = u := by simpa using hu
            subst hut
            exact hsplit

/-- Witness for C3: a document whose located section yields the nonempty
text `a b` with no surviving sentence is reported as an empty extraction. -/
theorem c3_amended_witness :
    process_file
        [⟨"h1", "Item 1A. Risk Factors", "Item 1A. Risk Factors",
          some "Item 1A. Risk Factors"⟩,
          ⟨"p", "a          b", "a          b", some "x"⟩] =
      ProcResult.emptyExtraction :=
  ((c3_amended
      [⟨"h1", "Item 1A. Risk Factors", "Item 1A. Risk Factors",
        some "Item 1A. Risk Factors"⟩,
        ⟨"p", "a          b", "a          b", some "x"⟩]).2.1).mpr
    ⟨"a b", by decide, by decide, by decide⟩

/-- Claim C3, counterexample: on a document whose heading is found but whose
section body is empty, the boundaries are located (`find_item1a_start`
succeeds, extraction returns the empty string), yet the outcome reported is
the section-not-found failure, not the empty-extraction failure. -/
theorem c3_counterexample :
    find_item1a_start
        [⟨"h1", "Item 1A. Risk Factors", "Item 1A. Risk Factors",
          some "Item 1A. Risk Factors"⟩] ≠ none ∧
      extract_item1a_content
          [⟨"h1", "Item 1A. Risk Factors", "Item 1A. Risk Factors",
            some "Item 1A. Risk Factors"⟩] = some "" ∧
      process_file
          [⟨"h1", "Item 1A. Risk Factors", "Item 1A. Risk Factors",
            some "Item 1A. Risk Factors"⟩] = ProcResult.sectionNotFound := by
  decide

/-! #### Standalone-bonus lemmas -/

lemma scoreCandidate_self_text (e : Node) (rest : List Node) :
    scoreCandidate e e.text rest = 50 + scoreWithoutStandalone e rest := by
  unfold scoreCandidate scoreWithoutStandalone
  rw [if_pos (by omega : e.text.length ≤ e.text.length + 15)]
  dsimp only
  omega

lemma rawCandidates_score :
    ∀ {doc : List Node} {s : Int} {n : Node} {rest : List Node},
      (s, n, rest) ∈ rawCandidates doc → s = scoreCandidate n n.text rest
  | [], s, n, rest, h => by simp [rawCandidates] at h
  | m :: ms, s, n, rest, h => by
    unfold rawCandidates at h
    split at h
    · rcases List.mem_cons.1 h with he | h
      · have h1 : s = scoreCandidate m m.text ms := congrArg Prod.fst he
        have h2 : n = m := congrArg (fun x => x.2.1) he
        have h3 : rest = ms := congrArg (fun x => x.2.2) he
        subst h2
        subst h3
        exact h1
      · exact rawCandidates_score h
    · exact rawCandidates_score h

/-- Claim C10: every enumerated candidate is scored with `text` equal to the
element's own stripped text, so the standalone-element condition
`len(element_text) <= len(matched_text) + 15` always holds and the `+50`
bonus is awarded unconditionally: each candidate's score is exactly `50`
plus the remaining rules' sum. -/
theorem c10_standalone_bonus (doc : List Node) (s : Int) (n : Node)
    (rest : List Node) (h : (s, n, rest) ∈ rawCandidates doc) :
    s = scoreCandidate n n.text rest ∧
      s = 50 + scoreWithoutStandalone n rest := by
  have h1 := rawCandidates_score h
  exact ⟨h1, h1.trans (scoreCandidate_self_text n rest)⟩

/-- Witness for C10: the single candidate of a one-node document scores 70,
which is 50 plus the remaining rules' sum of 20. -/
theorem c10_standalone_bonus_witness :
    (70 : Int) =
        scoreCandidate ⟨"p", "Item 1A. Risk Factors", "Item 1A. Risk Factors", none⟩
          (Node.text ⟨"p", "Item 1A. Risk Factors", "Item 1A. Risk Factors", none⟩) [] ∧
      (70 : Int) =
        50 + scoreWithoutStandalone
          ⟨"p", "Item 1A. Risk Factors", "Item 1A. Risk Factors", none⟩ [] :=
  c10_standalone_bonus
    [⟨"p", "Item 1A. Risk Factors", "Item 1A. Risk Factors", none⟩] 70
    ⟨"p", "Item 1A. Risk Factors", "Item 1A. Risk Factors", none⟩ [] (by decide)


/-! #### Serialization round-trip lemmas -/

lemma escQuote_nil : escQuote [] = [] := rfl

lemma escQuote_quote (cs : List Char) :
    escQuote ('\'' :: cs) = '\\' :: '\'' :: escQuote cs := rfl

lemma escQuote_other {c : Char} (h : c ≠ '\'') (cs : List Char) :
    escQuote (c :: cs) = c :: escQuote cs := by
  unfold escQuote
  rw [List.map_cons, List.flatten_cons, if_neg h]
  rfl

lemma unescapeSplit_esc (acc rest : List Char) :
    unescapeSplit acc ('\\' :: '\'' :: rest) = unescapeSplit ('\'' :: acc) rest := rfl

lemma unescapeSplit_sep (acc rest : List Char) :
    unescapeSplit acc ('\'' :: ',' :: ' ' :: '\'' :: rest) =
      acc.reverse :: unescapeSplit [] rest := rfl

lemma unescapeSplit_nil (acc : List Char) : unescapeSplit acc [] = [acc.reverse] := rfl

lemma unescapeSplit_other {c : Char} (h1 : c ≠ '\\') (h2 : c ≠ '\'')
    (acc rest : List Char) :
    unescapeSplit acc (c :: rest) = unescapeSplit (c :: acc) rest := by
  rw [unescapeSplit] <;> intros <;>
    first
      | exact absurd (by assumption : c = '\\') h1
      | exact absurd (by assumption : c = '\'') h2

lemma unescapeSplit_escQuote :
    ∀ {s : List Char}, (∀ c ∈ s, c ≠ '\\') → ∀ acc : List Char,
      (unescapeSplit acc (escQuote s) = [acc.reverse ++ s]) ∧
        ∀ rest : List Char,
          unescapeSplit acc (escQuote s ++ '\'' :: ',' :: ' ' :: '\'' :: rest) =
            (acc.reverse ++ s) :: unescapeSplit [] rest
  | [], _, acc => by
    refine ⟨by rw [escQuote_nil, unescapeSplit_nil]; simp, fun rest => ?_⟩
    rw [escQuote_nil, List.nil_append, unescapeSplit_sep]
    simp
  | c :: cs, h, acc => by
    have hcs : ∀ c ∈ cs, c ≠ '\\' := fun d hd => h d (List.mem_cons_of_mem c hd)
    by_cases hq : c = '\''
    · subst hq
      have ih := unescapeSplit_escQuote hcs ('\'' :: acc)
      constructor
      · rw [escQuote_quote, unescapeSplit_esc, ih.1]
        simp
      · intro rest
        rw [escQuote_quote, List.cons_append, List.cons_append,
          unescapeSplit_esc, ih.2 rest]
        simp
    · have hb : c ≠ '\\' := h c (List.mem_cons_self ..)
      have ih := unescapeSplit_escQuote hcs (c :: acc)
      constructor
      · rw [escQuote_other hq, unescapeSplit_other hb hq, ih.1]
        simp
      · intro rest
        rw [escQuote_other hq, List.cons_append, unescapeSplit_other hb hq, ih.2 rest]
        simp

lemma unescapeSplit_joinSep :
    ∀ {ss : List String}, ss ≠ [] → (∀ s ∈ ss, '\\' ∉ s.data) →
      unescapeSplit [] (joinSep sepChars (ss.map fun s => escQuote s.data)) =
        ss.map String.data
  | [], h, _ => absurd rfl h
  | [s], _, hb => by
    have hs : ∀ c ∈ s.data, c ≠ '\\' := by
      intro c hc he
      exact hb s (by simp) (he ▸ hc)
    simpa using (unescapeSplit_escQuote hs []).1
  | s :: s' :: rest, _, hb => by
    have hs : ∀ c ∈ s.data, c ≠ '\\' := by
      intro c hc he
      exact hb s (by simp) (he ▸ hc)
    have htail : unescapeSplit []
        (joinSep sepChars ((s' :: rest).map fun u => escQuote u.data)) =
          (s' :: rest).map String.data :=
      unescapeSplit_joinSep (by simp) (fun u hu => hb u (List.mem_cons_of_mem s hu))
    show unescapeSplit []
        (escQuote s.data ++ sepChars ++
          joinSep sepChars ((s' :: rest).map fun u => escQuote u.data)) = _
    rw [List.append_assoc]
    have := (unescapeSplit_escQuote hs []).2
      (joinSep sepChars ((s' :: rest).map fun u => escQuote u.data))
    rw [show sepChars ++ joinSep sepChars ((s' :: rest).map fun u => escQuote u.data) =
        '\'' :: ',' :: ' ' :: '\'' ::
          joinSep sepChars ((s' :: rest).map fun u => escQuote u.data) from rfl,
      this, htail]
    simp

lemma format_output_strip (ss : List String) :
    (((format_output ss).data.drop 2).dropLast).dropLast =
      joinSep sepChars (ss.map fun s => escQuote s.data) := by
  show ((('[' :: '\'' ::
      (joinSep sepChars (ss.map fun s => escQuote s.data) ++ ['\'', ']'])).drop 2).dropLast).dropLast = _
  rw [List.drop_succ_cons, List.drop_succ_cons, List.drop_zero,
    show (joinSep sepChars (ss.map fun s => escQuote s.data) ++ ['\'', ']']) =
      ((joinSep sepChars (ss.map fun s => escQuote s.data) ++ ['\'']) ++ [']']) by
        simp,
    List.dropLast_concat, List.dropLast_concat]

/-- Claim C6, amended: for every nonempty sentence list in which no sentence
contains a backslash, serializing with `format_output` and re-parsing by the
inverse of the escaping rule reproduces the original list exactly, including
sentences containing apostrophes.  (The restriction is forced: the empty
list collides with the one-empty-sentence list, and a sentence's own
backslash before a quote is serialized identically to an escaped quote.) -/
theorem c6_amended (ss : List String) (hne : ss ≠ [])
    (hb : ∀ s ∈ ss, '\\' ∉ s.data) :
    parse_output (format_output ss) = ss := by
  unfold parse_output
  rw [format_output_strip, unescapeSplit_joinSep hne hb]
  rw [List.map_map]
  have : (fun l : List Char => (⟨l⟩ : String)) ∘ String.data = id := by
    funext s
    rfl
  rw [this, List.map_id]

/-- Witness for C6: a sentence with an apostrophe round-trips. -/
theorem c6_amended_witness :
    parse_output (format_output ["The Company's results may vary."]) =
      ["The Company's results may vary."] :=
  c6_amended ["The Company's results may vary."] (by simp) (by decide)

/-- Claim C6, counterexample: the empty sentence list and the list holding
one empty sentence serialize to the same literal, so no parser can reproduce
both; in particular re-parsing the serialized empty list does not return it. -/
theorem c6_counterexample :
    format_output [] = format_output [""] ∧ parse_output (format_output []) ≠ [] := by
  decide

/-! #### Heading pattern lemmas -/

lemma isPrefixOf_exists {l₁ l₂ : List Char} (h : l₁.isPrefixOf l₂ = true) :
    ∃ r, l₂ = l₁ ++ r := by
  induction l₁ generalizing l₂ with
  | nil => exact ⟨l₂, rfl⟩
  | cons c cs ih =>
    cases l₂ with
    | nil => simp [List.isPrefixOf] at h
    | cons d ds =>
      simp only [List.isPrefixOf, Bool.and_eq_true, beq_iff_eq] at h
      obtain ⟨rfl, h2⟩ := h
      obtain ⟨r, rfl⟩ := ih h2
      exact ⟨r, rfl⟩

lemma isPrefixOf_append (n r : List Char) : n.isPrefixOf (n ++ r) = true := by
  induction n with
  | nil => simp [List.isPrefixOf]
  | cons c cs ih => simpa [List.isPrefixOf] using ih

lemma containsSub_exists :
    ∀ {h : List Char} {n : List Char}, containsSub n h = true → ∃ a b, h = a ++ n ++ b
  | [], n, hc => by
    simp only [containsSub, List.isEmpty_iff] at hc
    exact ⟨[], [], by simp [hc]⟩
  | c :: t, n, hc => by
    have hc' : n.isPrefixOf (c :: t) = true ∨ containsSub n t = true := by
      simpa [containsSub, Bool.or_eq_true] using hc
    rcases hc' with h1 | h1
    · obtain ⟨r, hr⟩ := isPrefixOf_exists h1
      exact ⟨[], r, by simp [hr]⟩
    · obtain ⟨a, b, hab⟩ := containsSub_exists h1
      exact ⟨c :: a, b, by simp [hab]⟩

lemma containsSub_of_append :
    ∀ (a : List Char) (n b : List Char), containsSub n (a ++ n ++ b) = true
  | [], n, b => by
    cases n with
    | nil =>
      cases b with
      | nil => rfl
      | cons c t => simp [containsSub, List.isPrefixOf]
    | cons m ms =>
      simp only [List.nil_append, List.cons_append, containsSub, Bool.or_eq_true]
      exact Or.inl (by simpa using isPrefixOf_append (m :: ms) b)
  | c :: a, n, b => by
    simp only [List.cons_append, containsSub, Bool.or_eq_true]
    exact Or.inr (containsSub_of_append a n b)

lemma mem_of_containsSub {n h : List Char} {c : Char}
    (hc : containsSub n h = true) (hm : c ∈ n) : c ∈ h := by
  obtain ⟨a, b, rfl⟩ := containsSub_exists hc
  simp [hm]

lemma containsSub_trans {a b c : List Char} (h1 : containsSub a b = true)
    (h2 : containsSub b c = true) : containsSub a c = true := by
  obtain ⟨x, y, rfl⟩ := containsSub_exists h1
  obtain ⟨u, v, rfl⟩ := containsSub_exists h2
  have he : u ++ (x ++ a ++ y) ++ v = (u ++ x) ++ a ++ (y ++ v) := by simp
  rw [he]
  exact containsSub_of_append ..

lemma noAdj_middle {R : Char → Char → Prop} {x y : Char} :
    ∀ (a : List Char) {b : List Char}, noAdj R (a ++ x :: y :: b) → ¬R x y := by
  intro a
  induction a with
  | nil => exact fun h => h.1
  | cons c a ih => exact fun h => ih (noAdj_tail h)

lemma mem_of_getLast? :
    ∀ {l : List Char} {a : Char}, l.getLast? = some a → a ∈ l
  | [], a, h => by simp at h
  | [b], a, h => by
    have hb : b = a := by simpa using h
    simp [hb]
  | b :: c :: t, a, h => by
    rw [List.getLast?_cons_cons] at h
    exact List.mem_cons_of_mem b (mem_of_getLast? h)

lemma mem_of_head? {l : List Char} {a : Char} (h : l.head? = some a) : a ∈ l := by
  cases l with
  | nil => simp at h
  | cons b t =>
    have : b = a := by simpa using h
    simp [this]

lemma noAdj_of_first_ne {x y : Char} {l : List Char} (h : ∀ c ∈ l, c ≠ x) :
    noAdj (fun a b => a = x ∧ b = y) l := by
  induction l with
  | nil => trivial
  | cons c cs ih =>
    refine noAdj_cons_of ?_ (ih fun d hd => h d (List.mem_cons_of_mem c hd))
    intro b _ hr
    exact h c (List.mem_cons_self ..) hr.1

lemma noAdj_append_left_notmem {x y : Char} {u v : List Char}
    (hu : noAdj (fun a b => a = x ∧ b = y) u)
    (hv : noAdj (fun a b => a = x ∧ b = y) v)
    (h : ∀ c ∈ u, c ≠ x) : noAdj (fun a b => a = x ∧ b = y) (u ++ v) :=
  noAdj_append hu hv fun a _ ha _ hr => h a (mem_of_getLast? ha) hr.1

lemma noAdj_append_left_last {x y : Char} {u v : List Char}
    (hu : noAdj (fun a b => a = x ∧ b = y) u)
    (hv : noAdj (fun a b => a = x ∧ b = y) v)
    (h : ∀ a, u.getLast? = some a → a ≠ x) :
    noAdj (fun a b => a = x ∧ b = y) (u ++ v) :=
  noAdj_append hu hv fun a _ ha _ hr => h a ha hr.1

lemma noAdj_append_right_notmem {x y : Char} {u v : List Char}
    (hu : noAdj (fun a b => a = x ∧ b = y) u)
    (hv : noAdj (fun a b => a = x ∧ b = y) v)
    (h : ∀ c ∈ v, c ≠ y) : noAdj (fun a b => a = x ∧ b = y) (u ++ v) :=
  noAdj_append hu hv fun _ b _ hb hr => h b (mem_of_head? hb) hr.2

lemma allWS_ne {w : List Char} {x : Char} (hw : allWS w) (hx : pyWS x = false) :
    ∀ c ∈ w, c ≠ x := by
  intro c hc he
  subst he
  rw [hw c hc] at hx
  exact absurd hx (by decide)

lemma optDot_decomp (m : List Char) :
    ∃ d, (d = [] ∨ d = ['.']) ∧ m = d ++ optDot m := by
  cases m with
  | nil => exact ⟨[], Or.inl rfl, rfl⟩
  | cons c r =>
    by_cases hc : c = '.'
    · subst hc
      exact ⟨['.'], Or.inr rfl, rfl⟩
    · refine ⟨[], Or.inl rfl, ?_⟩
      have : optDot (c :: r) = c :: r := by
        rw [optDot]
        intro r2 heq
        injection heq with heq1 heq2
        exact absurd heq1 hc
      rw [this]
      rfl

lemma decomp_tw (l : List Char) : l = l.takeWhile pyWS ++ l.dropWhile pyWS :=
  Eq.symm (List.takeWhile_append_dropWhile ..)

lemma decomp_take (n : Nat) (l X : List Char) (h : l.take n = X) :
    l = X ++ l.drop n := by
  conv_lhs => rw [← List.take_append_drop n l]
  rw [h]

lemma item1aMatch_shape {l : List Char} (hm : item1aMatch l = true) :
    item1aShape l := by
  unfold item1aMatch at hm
  dsimp only at hm
  split_ifs at hm with h1 h2 h3 h4
  have hm' := of_decide_eq_true hm
  obtain ⟨d1, hd1or, hd1⟩ :=
    optDot_decomp ((((l.dropWhile pyWS).drop 4).dropWhile pyWS).drop 2)
  obtain ⟨d2, hd2or, hd2⟩ :=
    optDot_decomp
      (((((optDot ((((l.dropWhile pyWS).drop 4).dropWhile pyWS).drop 2)).dropWhile
        pyWS).drop 4).dropWhile pyWS).drop 7)
  have e0 := decomp_tw l
  have e1 := decomp_take 4 (l.dropWhile pyWS) ['i', 't', 'e', 'm'] h1
  have e2 := decomp_tw ((l.dropWhile pyWS).drop 4)
  have e3 := decomp_take 2 (((l.dropWhile pyWS).drop 4).dropWhile pyWS)
    ['1', 'a'] h2
  have e4 := decomp_tw (optDot ((((l.dropWhile pyWS).drop 4).dropWhile pyWS).drop 2))
  have e5 := decomp_take 4
    ((optDot ((((l.dropWhile pyWS).drop 4).dropWhile pyWS).drop 2)).dropWhile pyWS)
    ['r', 'i', 's', 'k'] h3
  have e6 := decomp_tw (((optDot ((((l.dropWhile pyWS).drop 4).dropWhile
    pyWS).drop 2)).dropWhile pyWS).drop 4)
  have e7 := decomp_take 7
    ((((optDot ((((l.dropWhile pyWS).drop 4).dropWhile pyWS).drop 2)).dropWhile
      pyWS).drop 4).dropWhile pyWS)
    ['f', 'a', 'c', 't', 'o', 'r', 's'] h4
  rw [e1, e2, e3, hd1, e4, e5, e6, e7, hd2] at e0
  exact ⟨_, _, d1, _, _, d2, _, e0,
    fun c hc => List.mem_takeWhile_imp hc, fun c hc => List.mem_takeWhile_imp hc,
    fun c hc => List.mem_takeWhile_imp hc, fun c hc => List.mem_takeWhile_imp hc,
    fun c hc => List.dropWhile_eq_nil_iff.1 hm' c hc, hd1or, hd2or⟩

instance (c : Char) : Decidable (okChar c) := by
  unfold okChar
  infer_instance

lemma shape_allOk {l : List Char} (h : item1aShape l) : ∀ c ∈ l, okChar c := by
  obtain ⟨w1, w2, d1, w3, w4, d2, w5, heq, hw1, hw2, hw3, hw4, hw5, hd1, hd2⟩ := h
  intro c hc
  rw [heq] at hc
  simp only [List.mem_append] at hc
  rcases hc with h | h | h | h | h | h | h | h | h | h | h
  · exact Or.inl (hw1 c h)
  · exact Or.inr (by fin_cases h <;> decide)
  · exact Or.inl (hw2 c h)
  · exact Or.inr (by fin_cases h <;> decide)
  · rcases hd1 with rfl | rfl
    · simp at h
    · exact Or.inr (by fin_cases h <;> decide)
  · exact Or.inl (hw3 c h)
  · exact Or.inr (by fin_cases h <;> decide)
  · exact Or.inl (hw4 c h)
  · exact Or.inr (by fin_cases h <;> decide)
  · rcases hd2 with rfl | rfl
    · simp at h
    · exact Or.inr (by fin_cases h <;> decide)
  · exact Or.inl (hw5 c h)

lemma shape_noSE {l : List Char} (h : item1aShape l) :
    noAdj (fun a b => a = 's' ∧ b = 'e') l := by
  obtain ⟨w1, w2, d1, w3, w4, d2, w5, heq, hw1, hw2, hw3, hw4, hw5, hd1, hd2⟩ := h
  subst heq
  have hne : pyWS 's' = false := by decide
  have hd2ne : ∀ c ∈ d2, c ≠ 's' := by
    rcases hd2 with rfl | rfl
    · intro c hc; simp at hc
    · intro c hc
      have : c = '.' := by simpa using hc
      simp [this]
  have hd1ne : ∀ c ∈ d1, c ≠ 's' := by
    rcases hd1 with rfl | rfl
    · intro c hc; simp at hc
    · intro c hc
      have : c = '.' := by simpa using hc
      simp [this]
  have nd2 : noAdj (fun a b => a = 's' ∧ b = 'e') d2 := by
    rcases hd2 with rfl | rfl <;> trivial
  have nd1 : noAdj (fun a b => a = 's' ∧ b = 'e') d1 := by
    rcases hd1 with rfl | rfl <;> trivial
  have n45 := noAdj_append_left_notmem nd2 (noAdj_of_first_ne (allWS_ne hw5 hne)) hd2ne
  have nfact : noAdj (fun a b => a = 's' ∧ b = 'e')
      ['f', 'a', 'c', 't', 'o', 'r', 's'] :=
    ⟨by decide, by decide, by decide, by decide, by decide, by decide, trivial⟩
  have hne45 : ∀ c ∈ d2 ++ w5, c ≠ 'e' := by
    intro c hc
    rcases List.mem_append.1 hc with h | h
    · rcases hd2 with rfl | rfl
      · simp at h
      · have : c = '.' := by simpa using h
        simp [this]
    · exact allWS_ne hw5 (by decide) c h
  have nf45 := noAdj_append_right_notmem nfact n45 hne45
  have n4 := noAdj_append_left_notmem (noAdj_of_first_ne (allWS_ne hw4 hne)) nf45
    (allWS_ne hw4 hne)
  have nrisk : noAdj (fun a b => a = 's' ∧ b = 'e') ['r', 'i', 's', 'k'] :=
    ⟨by decide, by decide, by decide, trivial⟩
  have n3 := noAdj_append_left_last nrisk n4 (by
    intro a ha
    have hk : 'k' = a := by simpa using ha
    simp [← hk])
  have n3b := noAdj_append_left_notmem (noAdj_of_first_ne (allWS_ne hw3 hne)) n3
    (allWS_ne hw3 hne)
  have n2a := noAdj_append_left_notmem nd1 n3b hd1ne
  have n1a : noAdj (fun a b => a = 's' ∧ b = 'e') ['1', 'a'] := ⟨by decide, trivial⟩
  have n2 := noAdj_append_left_notmem n1a n2a (by decide)
  have n1b := noAdj_append_left_notmem (noAdj_of_first_ne (allWS_ne hw2 hne)) n2
    (allWS_ne hw2 hne)
  have nitem : noAdj (fun a b => a = 's' ∧ b = 'e') ['i', 't', 'e', 'm'] :=
    ⟨by decide, by decide, by decide, trivial⟩
  have n1 := noAdj_append_left_notmem nitem n1b (by decide)
  exact noAdj_append_left_notmem (noAdj_of_first_ne (allWS_ne hw1 hne)) n1
    (allWS_ne hw1 hne)

lemma shape_noRE {l : List Char} (h : item1aShape l) :
    noAdj (fun a b => a = 'r' ∧ b = 'e') l := by
  obtain ⟨w1, w2, d1, w3, w4, d2, w5, heq, hw1, hw2, hw3, hw4, hw5, hd1, hd2⟩ := h
  subst heq
  have hne : pyWS 'r' = false := by decide
  have hd2ne : ∀ c ∈ d2, c ≠ 'r' := by
    rcases hd2 with rfl | rfl
    · intro c hc; simp at hc
    · intro c hc
      have : c = '.' := by simpa using hc
      simp [this]
  have hd1ne : ∀ c ∈ d1, c ≠ 'r' := by
    rcases hd1 with rfl | rfl
    · intro c hc; simp at hc
    · intro c hc
      have : c = '.' := by simpa using hc
      simp [this]
  have nd2 : noAdj (fun a b => a = 'r' ∧ b = 'e') d2 := by
    rcases hd2 with rfl | rfl <;> trivial
  have nd1 : noAdj (fun a b => a = 'r' ∧ b = 'e') d1 := by
    rcases hd1 with rfl | rfl <;> trivial
  have n45 := noAdj_append_left_notmem nd2 (noAdj_of_first_ne (allWS_ne hw5 hne)) hd2ne
  have nfact : noAdj (fun a b => a = 'r' ∧ b = 'e')
      ['f', 'a', 'c', 't', 'o', 'r', 's'] :=
    ⟨by decide, by decide, by decide, by decide, by decide, by decide, trivial⟩
  have nf45 := noAdj_append_left_last nfact n45 (by
    intro a ha
    have hk : 's' = a := by simpa using ha
    simp [← hk])
  have n4 := noAdj_append_left_notmem (noAdj_of_first_ne (allWS_ne hw4 hne)) nf45
    (allWS_ne hw4 hne)
  have nrisk : noAdj (fun a b => a = 'r' ∧ b = 'e') ['r', 'i', 's', 'k'] :=
    ⟨by decide, by decide, by decide, trivial⟩
  have n3 := noAdj_append_left_last nrisk n4 (by
    intro a ha
    have hk : 'k' = a := by simpa using ha
    simp [← hk])
  have n3b := noAdj_append_left_notmem (noAdj_of_first_ne (allWS_ne hw3 hne)) n3
    (allWS_ne hw3 hne)
  have n2a := noAdj_append_left_notmem nd1 n3b hd1ne
  have n1a : noAdj (fun a b => a = 'r' ∧ b = 'e') ['1', 'a'] := ⟨by decide, trivial⟩
  have n2 := noAdj_append_left_notmem n1a n2a (by decide)
  have n1b := noAdj_append_left_notmem (noAdj_of_first_ne (allWS_ne hw2 hne)) n2
    (allWS_ne hw2 hne)
  have nitem : noAdj (fun a b => a = 'r' ∧ b = 'e') ['i', 't', 'e', 'm'] :=
    ⟨by decide, by decide, by decide, trivial⟩
  have n1 := noAdj_append_left_notmem nitem n1b (by decide)
  exact noAdj_append_left_notmem (noAdj_of_first_ne (allWS_ne hw1 hne)) n1
    (allWS_ne hw1 hne)

lemma kill_badchar (c : Char) {ind l : List Char}
    (hsub : containsSub ind l = true) (hok : ∀ c ∈ l, okChar c)
    (hc : c ∈ ind) (hbad : ¬okChar c) : False :=
  hbad (hok c (mem_of_containsSub hsub hc))

lemma kill_pair (x y : Char) {ind l : List Char}
    (hsub : containsSub ind l = true)
    (hpair : containsSub [x, y] ind = true)
    (hnadj : noAdj (fun a b => a = x ∧ b = y) l) : False := by
  obtain ⟨a, b, hab⟩ := containsSub_exists (containsSub_trans hpair hsub)
  rw [List.append_assoc] at hab
  exact noAdj_middle a (hab ▸ hnadj) ⟨rfl, rfl⟩

/-- The central fact behind C1: a lowercased text that fully matches the
Item 1A heading pattern can never contain a cross-reference phrase, because
its characters are limited to whitespace and the letters of the heading, no
`s` is followed by `e`, and no `r` is followed by `e`. -/
lemma no_indicator_of_match {l : List Char} (hm : item1aMatch l = true) :
    hasIndicator l = false := by
  cases hb : hasIndicator l with
  | false => rfl
  | true =>
    exfalso
    have shape := item1aMatch_shape hm
    have hok := shape_allOk shape
    have hse := shape_noSE shape
    have hre := shape_noRE shape
    unfold hasIndicator at hb
    rw [List.any_eq_true] at hb
    obtain ⟨ind, hind, hsub⟩ := hb
    simp only [referenceIndicators, List.mem_cons, List.not_mem_nil, or_false] at hind
    rcases hind with rfl | rfl | rfl | rfl | rfl | rfl | rfl | rfl | rfl | rfl | rfl |
      rfl | rfl | rfl | rfl | rfl | rfl | rfl | rfl
    · exact kill_badchar 'd' hsub hok (by decide) (by decide)
    · exact kill_pair 's' 'e' hsub (by decide) hse
    · exact kill_pair 'r' 'e' hsub (by decide) hre
    · exact kill_badchar 'n' hsub hok (by decide) (by decide)
    · exact kill_badchar 'n' hsub hok (by decide) (by decide)
    · exact kill_badchar 'd' hsub hok (by decide) (by decide)
    · exact kill_badchar 'n' hsub hok (by decide) (by decide)
    · exact kill_badchar 'h' hsub hok (by decide) (by decide)
    · exact kill_badchar 'p' hsub hok (by decide) (by decide)
    · exact kill_badchar 'd' hsub hok (by decide) (by decide)
    · exact kill_badchar 'h' hsub hok (by decide) (by decide)
    · exact kill_badchar 'd' hsub hok (by decide) (by decide)
    · exact kill_badchar 'n' hsub hok (by decide) (by decide)
    · exact kill_badchar 'd' hsub hok (by decide) (by decide)
    · exact kill_badchar 'u' hsub hok (by decide) (by decide)
    · exact kill_badchar 'u' hsub hok (by decide) (by decide)
    · exact kill_badchar 'j' hsub hok (by decide) (by decide)
    · exact kill_badchar 'w' hsub hok (by decide) (by decide)
    · exact kill_badchar 'u' hsub hok (by decide) (by decide)

lemma rawCandidates_eq_nil {doc : List Node}
    (h : ∀ n ∈ doc,
      ¬(searchTags.contains n.tag = true ∧ matchesItem1A n.text = true)) :
    rawCandidates doc = [] := by
  induction doc with
  | nil => rfl
  | cons n ns ih =>
    unfold rawCandidates
    rw [if_neg (h n (List.mem_cons_self ..))]
    exact ih fun m hm => h m (List.mem_cons_of_mem n hm)

/-- Claim C1: in a document where every node whose displayed text matches a
heading pattern also contains a cross-reference phrase in its own text,
every candidate scores at most 0 and `find_item1a_start` reports the
section as not found.  (In fact the hypothesis forces the candidate list to
be empty: a text matching the heading pattern can never contain a
cross-reference phrase.) -/
theorem c1_crossref_only (doc : List Node)
    (h : ∀ n ∈ doc, matchesItem1A n.text = true →
      hasIndicator (lowerChars n.text) = true) :
    (∀ c ∈ rawCandidates doc, c.1 ≤ 0) ∧ find_item1a_start doc = none := by
  have hnil : rawCandidates doc = [] := by
    refine rawCandidates_eq_nil fun n hn hc => ?_
    have hmatch := hc.2
    have hind := h n hn hmatch
    have hno : hasIndicator (lowerChars n.text) = false :=
      no_indicator_of_match hmatch
    rw [hind] at hno
    exact absurd hno (by decide)
  constructor
  · rw [hnil]
    intro c hc
    simp at hc
  · unfold find_item1a_start find_all_item1a_candidates
    rw [hnil]
    rfl

/-- Witness for C1: a document whose single node does not match the heading
pattern satisfies the hypothesis vacuously and yields no section. -/
theorem c1_crossref_only_witness :
    (∀ c ∈ rawCandidates [⟨"p", "hello world", "hello world", none⟩], c.1 ≤ 0) ∧
      find_item1a_start [⟨"p", "hello world", "hello world", none⟩] = none :=
  c1_crossref_only [⟨"p", "hello world", "hello world", none⟩] (by decide)

end Extract
